import Mathlib

set_option maxRecDepth 8192

/-!
Verification of the URL content downloader core: the reducer-based state
container, the sequential extraction pipeline (processUrls, retryFailed) and
the packaging engine (startDownload) with its UTF-8 byte-budget truncation
and chunking.  Strings are modelled as lists of Unicode scalar values, byte
buffers as lists of naturals below 256.  TextEncoder is modelled by
`utf8Encode`; TextDecoder with fatal set to false is modelled by
`utf8Decode`, the WHATWG UTF-8 decoder that emits U+FFFD for each maximal
malformed subsequence and for an incomplete trailing sequence.
-/

namespace UrlDownloader

/-- Strings are lists of Unicode scalar values (code points). -/
abbrev Str := List Nat

/-- Convert a Lean string literal to the scalar-value model. -/
def ofString (s : String) : Str := s.data.map Char.toNat

/-- Valid Unicode scalar value: below 0x110000 and not a surrogate. -/
def ValidScalar (c : Nat) : Prop := c < 0x110000 ∧ ¬ (0xD800 ≤ c ∧ c ≤ 0xDFFF)

/-- Every scalar of the string is valid. -/
def ValidStr (s : Str) : Prop := ∀ c ∈ s, ValidScalar c

instance (c : Nat) : Decidable (ValidScalar c) := by
  unfold ValidScalar
  infer_instance

instance (s : Str) : Decidable (ValidStr s) := by
  unfold ValidStr
  infer_instance

/-- UTF-8 encoding of one scalar value (TextEncoder, per scalar). -/
def utf8EncodeChar (c : Nat) : List Nat :=
  if c < 0x80 then [c]
  else if c < 0x800 then [0xC0 + c / 0x40, 0x80 + c % 0x40]
  else if c < 0x10000 then
    [0xE0 + c / 0x1000, 0x80 + c / 0x40 % 0x40, 0x80 + c % 0x40]
  else
    [0xF0 + c / 0x40000, 0x80 + c / 0x1000 % 0x40, 0x80 + c / 0x40 % 0x40,
     0x80 + c % 0x40]

/-- UTF-8 encoding of a string (the model of TextEncoder.encode). -/
def utf8Encode (s : Str) : List Nat := (s.map utf8EncodeChar).flatten

/-- One step of the WHATWG UTF-8 decoder: given the current byte and the
remaining bytes, return the emitted code point (U+FFFD on error) and the
bytes left unconsumed.  On an invalid continuation byte the offending byte
is left in the stream to be reprocessed, as the WHATWG algorithm restores
it to the queue; an incomplete sequence at end of stream yields one
U+FFFD. -/
def decodeStep (b : Nat) (rest : List Nat) : Nat × List Nat :=
  if b < 0x80 then (b, rest)
  else if b < 0xC2 then (0xFFFD, rest)
  else if b ≤ 0xDF then
    match rest with
    | [] => (0xFFFD, [])
    | b1 :: rest1 =>
      if 0x80 ≤ b1 ∧ b1 ≤ 0xBF then ((b - 0xC0) * 0x40 + (b1 - 0x80), rest1)
      else (0xFFFD, b1 :: rest1)
  else if b ≤ 0xEF then
    let lo := if b = 0xE0 then 0xA0 else 0x80
    let hi := if b = 0xED then 0x9F else 0xBF
    match rest with
    | [] => (0xFFFD, [])
    | b1 :: rest1 =>
      if lo ≤ b1 ∧ b1 ≤ hi then
        match rest1 with
        | [] => (0xFFFD, [])
        | b2 :: rest2 =>
          if 0x80 ≤ b2 ∧ b2 ≤ 0xBF then
            ((b - 0xE0) * 0x1000 + (b1 - 0x80) * 0x40 + (b2 - 0x80), rest2)
          else (0xFFFD, b2 :: rest2)
      else (0xFFFD, b1 :: rest1)
  else if b ≤ 0xF4 then
    let lo := if b = 0xF0 then 0x90 else 0x80
    let hi := if b = 0xF4 then 0x8F else 0xBF
    match rest with
    | [] => (0xFFFD, [])
    | b1 :: rest1 =>
      if lo ≤ b1 ∧ b1 ≤ hi then
        match rest1 with
        | [] => (0xFFFD, [])
        | b2 :: rest2 =>
          if 0x80 ≤ b2 ∧ b2 ≤ 0xBF then
            match rest2 with
            | [] => (0xFFFD, [])
            | b3 :: rest3 =>
              if 0x80 ≤ b3 ∧ b3 ≤ 0xBF then
                ((b - 0xF0) * 0x40000 + (b1 - 0x80) * 0x1000 +
                  (b2 - 0x80) * 0x40 + (b3 - 0x80), rest3)
              else (0xFFFD, b3 :: rest3)
          else (0xFFFD, b2 :: rest2)
      else (0xFFFD, b1 :: rest1)
  else (0xFFFD, rest)

/-- Fueled driver of the WHATWG decoder; each call consumes at least the
current byte, so fuel equal to the length of the input always suffices. -/
def utf8DecodeGo : Nat → List Nat → List Nat
  | 0, _ => []
  | _ + 1, [] => []
  | fuel + 1, b :: rest =>
    (decodeStep b rest).1 :: utf8DecodeGo fuel (decodeStep b rest).2

/-- Lossy UTF-8 decoding (the model of TextDecoder with fatal false). -/
def utf8Decode (bs : List Nat) : List Nat := utf8DecodeGo bs.length bs

theorem decodeStep_rest_length (b : Nat) (rest : List Nat) :
    (decodeStep b rest).2.length ≤ rest.length := by
  unfold decodeStep
  repeat' split
  all_goals simp_all
  all_goals repeat' split
  all_goals simp_all
  all_goals omega

theorem utf8DecodeGo_nil (f : Nat) : utf8DecodeGo f [] = [] := by
  cases f <;> simp [utf8DecodeGo]

theorem utf8DecodeGo_fuel (n : Nat) :
    ∀ bs : List Nat, bs.length ≤ n → ∀ f₁ f₂ : Nat, bs.length ≤ f₁ →
      bs.length ≤ f₂ → utf8DecodeGo f₁ bs = utf8DecodeGo f₂ bs := by
  induction n with
  | zero =>
    intro bs h f₁ f₂ _ _
    have : bs = [] := List.length_eq_zero.mp (Nat.le_zero.mp h)
    subst this
    rw [utf8DecodeGo_nil, utf8DecodeGo_nil]
  | succ n ih =>
    intro bs h f₁ f₂ h₁ h₂
    match bs, f₁, f₂ with
    | [], f₁, f₂ => rw [utf8DecodeGo_nil, utf8DecodeGo_nil]
    | b :: rest, f₁ + 1, f₂ + 1 =>
      simp only [utf8DecodeGo]
      have hlen : (decodeStep b rest).2.length ≤ rest.length :=
        decodeStep_rest_length b rest
      simp only [List.length_cons] at h h₁ h₂
      exact congrArg _ (ih (decodeStep b rest).2 (by omega) f₁ f₂
        (by omega) (by omega))

theorem utf8Decode_cons (b : Nat) (rest : List Nat) :
    utf8Decode (b :: rest) =
      (decodeStep b rest).1 :: utf8Decode (decodeStep b rest).2 := by
  have hlen : (decodeStep b rest).2.length ≤ rest.length :=
    decodeStep_rest_length b rest
  simp only [utf8Decode, List.length_cons, utf8DecodeGo]
  exact congrArg _ (utf8DecodeGo_fuel rest.length _ hlen _ _ hlen le_rfl)

theorem utf8Encode_nil : utf8Encode [] = [] := rfl

theorem utf8Encode_cons (c : Nat) (s : Str) :
    utf8Encode (c :: s) = utf8EncodeChar c ++ utf8Encode s := by
  simp [utf8Encode]

theorem utf8Encode_append (s₁ s₂ : Str) :
    utf8Encode (s₁ ++ s₂) = utf8Encode s₁ ++ utf8Encode s₂ := by
  simp [utf8Encode]

theorem utf8EncodeChar_length (c : Nat) :
    (utf8EncodeChar c).length =
      if c < 0x80 then 1 else if c < 0x800 then 2
      else if c < 0x10000 then 3 else 4 := by
  unfold utf8EncodeChar
  repeat' split
  all_goals rfl

theorem utf8EncodeChar_length_pos (c : Nat) : 0 < (utf8EncodeChar c).length := by
  rw [utf8EncodeChar_length]
  repeat' split
  all_goals omega

theorem decodeStep_enc2 (c : Nat) (h1 : 0x80 ≤ c) (h2 : c < 0x800)
    (rest : List Nat) :
    decodeStep (0xC0 + c / 0x40) ((0x80 + c % 0x40) :: rest) = (c, rest) := by
  unfold decodeStep
  rw [if_neg (by omega), if_neg (by omega), if_pos (by omega)]
  dsimp only
  rw [if_pos (by omega)]
  have hc : (0xC0 + c / 0x40 - 0xC0) * 0x40 + (0x80 + c % 0x40 - 0x80) = c := by
    omega
  rw [hc]

theorem enc3_b1_range (c : Nat) (h1 : 0x800 ≤ c) (h2 : c < 0x10000)
    (hsur : ¬ (0xD800 ≤ c ∧ c ≤ 0xDFFF)) :
    (if 0xE0 + c / 0x1000 = 0xE0 then 0xA0 else 0x80) ≤ 0x80 + c / 0x40 % 0x40 ∧
      0x80 + c / 0x40 % 0x40 ≤ (if 0xE0 + c / 0x1000 = 0xED then 0x9F else 0xBF) := by
  constructor
  · split
    · rename_i he
      have h0 : c / 0x1000 = 0 := by omega
      omega
    · omega
  · split
    · rename_i he
      have hd : c / 0x1000 = 0xD := by omega
      omega
    · omega

theorem decodeStep_enc3 (c : Nat) (h1 : 0x800 ≤ c) (h2 : c < 0x10000)
    (hsur : ¬ (0xD800 ≤ c ∧ c ≤ 0xDFFF)) (rest : List Nat) :
    decodeStep (0xE0 + c / 0x1000)
      ((0x80 + c / 0x40 % 0x40) :: (0x80 + c % 0x40) :: rest) = (c, rest) := by
  unfold decodeStep
  rw [if_neg (by omega), if_neg (by omega), if_neg (by omega), if_pos (by omega)]
  dsimp only
  rw [if_pos (enc3_b1_range c h1 h2 hsur), if_pos (by omega)]
  have hc : (0xE0 + c / 0x1000 - 0xE0) * 0x1000 +
      (0x80 + c / 0x40 % 0x40 - 0x80) * 0x40 + (0x80 + c % 0x40 - 0x80) = c := by
    omega
  rw [hc]

theorem enc4_b1_range (c : Nat) (h1 : 0x10000 ≤ c) (h2 : c < 0x110000) :
    (if 0xF0 + c / 0x40000 = 0xF0 then 0x90 else 0x80) ≤ 0x80 + c / 0x1000 % 0x40 ∧
      0x80 + c / 0x1000 % 0x40 ≤ (if 0xF0 + c / 0x40000 = 0xF4 then 0x8F else 0xBF) := by
  constructor
  · split
    · rename_i he
      have h0 : c / 0x40000 = 0 := by omega
      omega
    · omega
  · split
    · rename_i he
      have h4 : c / 0x40000 = 4 := by omega
      omega
    · omega

theorem decodeStep_enc4 (c : Nat) (h1 : 0x10000 ≤ c) (h2 : c < 0x110000)
    (rest : List Nat) :
    decodeStep (0xF0 + c / 0x40000)
      ((0x80 + c / 0x1000 % 0x40) :: (0x80 + c / 0x40 % 0x40) ::
        (0x80 + c % 0x40) :: rest) = (c, rest) := by
  unfold decodeStep
  rw [if_neg (by omega), if_neg (by omega), if_neg (by omega), if_neg (by omega),
    if_pos (by omega)]
  dsimp only
  rw [if_pos (enc4_b1_range c h1 h2), if_pos (by omega), if_pos (by omega)]
  have hc : (0xF0 + c / 0x40000 - 0xF0) * 0x40000 +
      (0x80 + c / 0x1000 % 0x40 - 0x80) * 0x1000 +
      (0x80 + c / 0x40 % 0x40 - 0x80) * 0x40 + (0x80 + c % 0x40 - 0x80) = c := by
    omega
  rw [hc]

theorem utf8Decode_encodeChar_append (c : Nat) (hc : ValidScalar c)
    (rest : List Nat) :
    utf8Decode (utf8EncodeChar c ++ rest) = c :: utf8Decode rest := by
  obtain ⟨hlt, hsur⟩ := hc
  by_cases h1 : c < 0x80
  · rw [show utf8EncodeChar c = [c] from by unfold utf8EncodeChar; rw [if_pos h1]]
    rw [List.cons_append, List.nil_append, utf8Decode_cons]
    rw [show decodeStep c rest = (c, rest) from by
      unfold decodeStep; rw [if_pos h1]]
  · by_cases h2 : c < 0x800
    · rw [show utf8EncodeChar c = [0xC0 + c / 0x40, 0x80 + c % 0x40] from by
        unfold utf8EncodeChar; rw [if_neg h1, if_pos h2]]
      rw [List.cons_append, List.cons_append, List.nil_append, utf8Decode_cons,
        decodeStep_enc2 c (by omega) h2]
    · by_cases h3 : c < 0x10000
      · rw [show utf8EncodeChar c =
            [0xE0 + c / 0x1000, 0x80 + c / 0x40 % 0x40, 0x80 + c % 0x40] from by
          unfold utf8EncodeChar; rw [if_neg h1, if_neg h2, if_pos h3]]
        rw [List.cons_append, List.cons_append, List.cons_append,
          List.nil_append, utf8Decode_cons,
          decodeStep_enc3 c (by omega) h3 hsur]
      · rw [show utf8EncodeChar c =
            [0xF0 + c / 0x40000, 0x80 + c / 0x1000 % 0x40,
             0x80 + c / 0x40 % 0x40, 0x80 + c % 0x40] from by
          unfold utf8EncodeChar; rw [if_neg h1, if_neg h2, if_neg h3]]
        rw [List.cons_append, List.cons_append, List.cons_append,
          List.cons_append, List.nil_append, utf8Decode_cons,
          decodeStep_enc4 c (by omega) hlt]

theorem utf8Decode_encode_append (s : Str) (hs : ValidStr s) (extra : List Nat) :
    utf8Decode (utf8Encode s ++ extra) = s ++ utf8Decode extra := by
  induction s with
  | nil => simp [utf8Encode_nil]
  | cons c s ih =>
    rw [utf8Encode_cons, List.append_assoc,
      utf8Decode_encodeChar_append c (hs c (List.mem_cons_self c s))]
    rw [ih (fun x hx => hs x (List.mem_cons_of_mem c hx))]
    rfl

/-- Round trip: the lossy decoder is exact on well-formed UTF-8. -/
theorem utf8Decode_encode (s : Str) (hs : ValidStr s) :
    utf8Decode (utf8Encode s) = s := by
  have h := utf8Decode_encode_append s hs []
  simpa [utf8Decode, utf8DecodeGo_nil] using h

theorem utf8Decode_nil : utf8Decode [] = [] := rfl

/-- Decoding a nonempty strict prefix of one encoded character yields a
single replacement character: the incomplete sequence reaches the end of
the stream and the WHATWG decoder emits one U+FFFD. -/
theorem utf8Decode_take_encodeChar (c : Nat) (hc : ValidScalar c) (k : Nat)
    (hk1 : 1 ≤ k) (hk2 : k < (utf8EncodeChar c).length) :
    utf8Decode ((utf8EncodeChar c).take k) = [0xFFFD] := by
  obtain ⟨hlt, hsur⟩ := hc
  by_cases h1 : c < 0x80
  · rw [show utf8EncodeChar c = [c] from by unfold utf8EncodeChar; rw [if_pos h1]]
      at hk2
    simp at hk2
    omega
  · by_cases h2 : c < 0x800
    · rw [show utf8EncodeChar c = [0xC0 + c / 0x40, 0x80 + c % 0x40] from by
        unfold utf8EncodeChar; rw [if_neg h1, if_pos h2]] at hk2 ⊢
      simp only [List.length_cons, List.length_nil] at hk2
      have hk : k = 1 := by omega
      subst hk
      simp only [List.take_succ_cons, List.take_zero]
      rw [utf8Decode_cons, show decodeStep (0xC0 + c / 0x40) [] = (0xFFFD, []) from by
        unfold decodeStep
        rw [if_neg (by omega), if_neg (by omega), if_pos (by omega)]]
      rw [utf8Decode_nil]
    · by_cases h3 : c < 0x10000
      · rw [show utf8EncodeChar c =
            [0xE0 + c / 0x1000, 0x80 + c / 0x40 % 0x40, 0x80 + c % 0x40] from by
          unfold utf8EncodeChar; rw [if_neg h1, if_neg h2, if_pos h3]] at hk2 ⊢
        simp only [List.length_cons, List.length_nil] at hk2
        have hk : k = 1 ∨ k = 2 := by omega
        rcases hk with hk | hk
        all_goals subst hk
        · simp only [List.take_succ_cons, List.take_zero]
          rw [utf8Decode_cons,
            show decodeStep (0xE0 + c / 0x1000) [] = (0xFFFD, []) from by
              unfold decodeStep
              rw [if_neg (by omega), if_neg (by omega), if_neg (by omega),
                if_pos (by omega)]]
          rw [utf8Decode_nil]
        · simp only [List.take_succ_cons, List.take_zero]
          rw [utf8Decode_cons,
            show decodeStep (0xE0 + c / 0x1000) [0x80 + c / 0x40 % 0x40] =
                (0xFFFD, []) from by
              unfold decodeStep
              rw [if_neg (by omega), if_neg (by omega), if_neg (by omega),
                if_pos (by omega)]
              dsimp only
              rw [if_pos (enc3_b1_range c (by omega) h3 hsur)]]
          rw [utf8Decode_nil]
      · rw [show utf8EncodeChar c =
            [0xF0 + c / 0x40000, 0x80 + c / 0x1000 % 0x40,
             0x80 + c / 0x40 % 0x40, 0x80 + c % 0x40] from by
          unfold utf8EncodeChar; rw [if_neg h1, if_neg h2, if_neg h3]] at hk2 ⊢
        simp only [List.length_cons, List.length_nil] at hk2
        have hk : k = 1 ∨ k = 2 ∨ k = 3 := by omega
        rcases hk with hk | hk | hk
        all_goals subst hk
        · simp only [List.take_succ_cons, List.take_zero]
          rw [utf8Decode_cons,
            show decodeStep (0xF0 + c / 0x40000) [] = (0xFFFD, []) from by
              unfold decodeStep
              rw [if_neg (by omega), if_neg (by omega), if_neg (by omega),
                if_neg (by omega), if_pos (by omega)]]
          rw [utf8Decode_nil]
        · simp only [List.take_succ_cons, List.take_zero]
          rw [utf8Decode_cons,
            show decodeStep (0xF0 + c / 0x40000) [0x80 + c / 0x1000 % 0x40] =
                (0xFFFD, []) from by
              unfold decodeStep
              rw [if_neg (by omega), if_neg (by omega), if_neg (by omega),
                if_neg (by omega), if_pos (by omega)]
              dsimp only
              rw [if_pos (enc4_b1_range c (by omega) hlt)]]
          rw [utf8Decode_nil]
        · simp only [List.take_succ_cons, List.take_zero]
          rw [utf8Decode_cons,
            show decodeStep (0xF0 + c / 0x40000)
                [0x80 + c / 0x1000 % 0x40, 0x80 + c / 0x40 % 0x40] =
                (0xFFFD, []) from by
              unfold decodeStep
              rw [if_neg (by omega), if_neg (by omega), if_neg (by omega),
                if_neg (by omega), if_pos (by omega)]
              dsimp only
              rw [if_pos (enc4_b1_range c (by omega) hlt), if_pos (by omega)]]
          rw [utf8Decode_nil]

/-- Taking B bytes of an encoded string splits it as the encoding of a
string prefix followed by a possibly empty strict prefix of the encoding
of the next character. -/
theorem encode_take_split (s : Str) (B : Nat) (hB : B < (utf8Encode s).length) :
    ∃ s₁ c s₂, s = s₁ ++ c :: s₂ ∧ (utf8Encode s₁).length ≤ B ∧
      B < (utf8Encode s₁).length + (utf8EncodeChar c).length ∧
      (utf8Encode s).take B =
        utf8Encode s₁ ++ (utf8EncodeChar c).take (B - (utf8Encode s₁).length) := by
  induction s generalizing B with
  | nil => simp [utf8Encode_nil] at hB
  | cons c s ih =>
    by_cases hc : B < (utf8EncodeChar c).length
    · refine ⟨[], c, s, rfl, by simp [utf8Encode_nil], ?_, ?_⟩
      · simp only [utf8Encode_nil, List.length_nil]
        omega
      · rw [utf8Encode_cons, utf8Encode_nil, List.nil_append,
          List.take_append_eq_append_take,
          Nat.sub_eq_zero_of_le (Nat.le_of_lt hc), List.take_zero,
          List.append_nil]
        simp
    · push_neg at hc
      rw [utf8Encode_cons, List.length_append] at hB
      obtain ⟨s₁, c', s₂, hsplit, h1, h2, h3⟩ :=
        ih (B - (utf8EncodeChar c).length) (by omega)
      refine ⟨c :: s₁, c', s₂, by rw [hsplit, List.cons_append], ?_, ?_, ?_⟩
      · rw [utf8Encode_cons, List.length_append]
        omega
      · rw [utf8Encode_cons, List.length_append]
        omega
      · rw [utf8Encode_cons, List.take_append_eq_append_take,
          List.take_of_length_le hc, utf8Encode_cons, List.length_append,
          List.append_assoc, h3]
        have harith : B - (utf8EncodeChar c).length - (utf8Encode s₁).length =
            B - ((utf8EncodeChar c).length + (utf8Encode s₁).length) := by omega
        rw [harith]

theorem utf8EncodeChar_replacement_length :
    (utf8EncodeChar 0xFFFD).length = 3 := rfl

theorem validStr_append_left {s₁ s₂ : Str} (h : ValidStr (s₁ ++ s₂)) :
    ValidStr s₁ := fun c hc => h c (List.mem_append_left s₂ hc)

theorem validStr_append_right {s₁ s₂ : Str} (h : ValidStr (s₁ ++ s₂)) :
    ValidStr s₂ := fun c hc => h c (List.mem_append_right s₁ hc)

/-- Truncating well-formed UTF-8 to B bytes and decoding lossily yields text
whose re-encoding is at most B + 2 bytes long: at most one byte of a
dangling sequence is replaced by the three byte encoding of U+FFFD. -/
theorem truncated_reencode_length_le (s : Str) (hs : ValidStr s) (B : Nat)
    (hB : B < (utf8Encode s).length) :
    (utf8Encode (utf8Decode ((utf8Encode s).take B))).length ≤ B + 2 := by
  obtain ⟨s₁, c, s₂, hsplit, h1, h2, h3⟩ := encode_take_split s B hB
  have hs₁ : ValidStr s₁ := validStr_append_left (hsplit ▸ hs)
  have hcv : ValidScalar c := by
    have h2 : ValidStr (c :: s₂) := validStr_append_right (hsplit ▸ hs)
    exact h2 c (List.mem_cons_self c s₂)
  rw [h3]
  by_cases hk : B - (utf8Encode s₁).length = 0
  · rw [hk, List.take_zero, List.append_nil, utf8Decode_encode s₁ hs₁]
    omega
  · rw [utf8Decode_encode_append s₁ hs₁ _,
      utf8Decode_take_encodeChar c hcv _ (by omega) (by omega),
      utf8Encode_append, List.length_append]
    have hlen : (utf8Encode [0xFFFD]).length = 3 := rfl
    rw [hlen]
    omega

theorem ascii_validStr {bs : List Nat} (h : ∀ b ∈ bs, b < 0x80) :
    ValidStr bs := fun b hb => ⟨by have := h b hb; omega, by have := h b hb; omega⟩

theorem utf8Encode_ascii {bs : List Nat} (h : ∀ b ∈ bs, b < 0x80) :
    utf8Encode bs = bs := by
  induction bs with
  | nil => rfl
  | cons b bs ih =>
    rw [utf8Encode_cons,
      show utf8EncodeChar b = [b] from by
        unfold utf8EncodeChar
        rw [if_pos (h b (List.mem_cons_self b bs))]]
    rw [ih (fun x hx => h x (List.mem_cons_of_mem b hx))]
    rfl

theorem utf8Decode_ascii {bs : List Nat} (h : ∀ b ∈ bs, b < 0x80) :
    utf8Decode bs = bs := by
  have he := utf8Encode_ascii h
  have hd := utf8Decode_encode bs (ascii_validStr h)
  rw [he] at hd
  exact hd

/-! ## Application state model

The state container, the reducer and the dispatched actions of the
downloader app, translated from the source.  JavaScript objects keyed by
url are modelled as association lists in insertion order: assigning an
existing key updates it in place, a new key is appended.  The selection Set
is a duplicate free list in insertion order. -/

inductive ProgressStatus
  | pending
  | completed
  | error
deriving DecidableEq

structure ProgressItem where
  status : ProgressStatus
  error : Option Str := none
  content : Option Str := none
deriving DecidableEq

abbrev ProgMap := List (Str × ProgressItem)

/-- Reading progress[url]. -/
def objGet (m : ProgMap) (k : Str) : Option ProgressItem :=
  (m.find? (fun p => p.1 = k)).map (fun p => p.2)

/-- Assigning progress[url]: update in place when present, append otherwise. -/
def objSet (m : ProgMap) (k : Str) (v : ProgressItem) : ProgMap :=
  if m.any (fun p => p.1 = k) then
    m.map (fun p => if p.1 = k then (k, v) else p)
  else m ++ [(k, v)]

inductive ContentFormat
  | individual
  | combined
deriving DecidableEq

inductive PackageFormat
  | files
  | zip
deriving DecidableEq

inductive DownloadTarget
  | selected
  | all
deriving DecidableEq

structure DownloadOptions where
  contentFormat : ContentFormat
  packageFormat : PackageFormat
  maxSize : Nat
  combinedFilename : Str
deriving DecidableEq

structure AppState where
  urlsToProcess : Str
  downloadOptions : DownloadOptions
  progress : ProgMap
  isProcessing : Bool
  selectedUrlsForDownload : List Str
  downloadTarget : DownloadTarget
deriving DecidableEq

inductive ClearScope
  | all
  | completed
  | failed
deriving DecidableEq

inductive Action where
  | setUrls (payload : Str)
  | setDownloadOptions (contentFormat : Option ContentFormat)
      (packageFormat : Option PackageFormat) (maxSize : Option Nat)
      (combinedFilename : Option Str)
  | progressUpdate (payload : ProgMap)
  | startProcessing
  | finishProcessing
  | clearProgress (payload : ClearScope)
  | setDownloadTarget (payload : DownloadTarget)
  | toggleUrlSelection (payload : Str)

def initialState : AppState :=
  { urlsToProcess := []
    downloadOptions :=
      { contentFormat := .individual
        packageFormat := .files
        maxSize := 1024
        combinedFilename := ofString "combined_content.txt" }
    progress := []
    isProcessing := false
    selectedUrlsForDownload := []
    downloadTarget := .selected }

/-- Does an entry match a clear scope (completed clears completed entries,
failed clears error entries). -/
def clearMatches (scope : ClearScope) (it : ProgressItem) : Bool :=
  match scope with
  | .completed => it.status = ProgressStatus.completed
  | .failed => it.status = ProgressStatus.error
  | .all => true

/-- Set.delete on the selection. -/
def setDelete (sel : List Str) (u : Str) : List Str :=
  sel.filter (fun v => ¬ v = u)

/-- The state reducer, translated case by case from the source. -/
def reducer (s : AppState) (a : Action) : AppState :=
  match a with
  | .setUrls payload => { s with urlsToProcess := payload }
  | .setDownloadOptions cf pf ms cfn =>
      { s with downloadOptions :=
        { contentFormat := cf.getD s.downloadOptions.contentFormat
          packageFormat := pf.getD s.downloadOptions.packageFormat
          maxSize := ms.getD s.downloadOptions.maxSize
          combinedFilename := cfn.getD s.downloadOptions.combinedFilename } }
  | .progressUpdate payload => { s with progress := payload }
  | .startProcessing => { s with isProcessing := true }
  | .finishProcessing => { s with isProcessing := false }
  | .clearProgress .all =>
      { s with
        urlsToProcess := []
        progress := []
        selectedUrlsForDownload := [] }
  | .clearProgress scope =>
      { s with
        progress := s.progress.filter (fun p => ¬ clearMatches scope p.2)
        selectedUrlsForDownload :=
          s.progress.foldl
            (fun sel p =>
              if clearMatches scope p.2 then setDelete sel p.1 else sel)
            s.selectedUrlsForDownload }
  | .setDownloadTarget t => { s with downloadTarget := t }
  | .toggleUrlSelection u =>
      if s.selectedUrlsForDownload.contains u then
        { s with selectedUrlsForDownload :=
            setDelete s.selectedUrlsForDownload u }
      else
        { s with selectedUrlsForDownload :=
            s.selectedUrlsForDownload ++ [u] }

/-! ## Extraction pipeline -/

inductive FetchResult
  | ok (content : Str)
  | err (message : Str)

def defaultErrorMessage : Str := ofString "Failed to fetch content"

/-- Model of fetchUrlContent: a successful response yields a completed item
holding the body text; any failure is caught and recorded as an error item,
with a fallback message when the thrown message is empty. -/
def fetchItem : FetchResult → ProgressItem
  | .ok c => { status := .completed, error := none, content := some c }
  | .err m =>
      { status := .error,
        error := some (if m = [] then defaultErrorMessage else m),
        content := none }

def pendingItem : ProgressItem := { status := .pending }

/-- Bulk pending marking at the start of processUrls: every nonempty url is
set to a fresh pending item. -/
def markPendingMap (m : ProgMap) (urls : List Str) : ProgMap :=
  urls.foldl (fun acc u => if u = [] then acc else objSet acc u pendingItem) m

/-- Model of processUrls: the fetch collaborator is an oracle giving each
url its outcome.  The empty list finishes immediately; otherwise all urls
are marked pending in one update, then resolved strictly sequentially, and
a final dispatch clears the processing flag. -/
def processUrlsModel (s : AppState) (urls : List Str)
    (fetch : Str → FetchResult) : AppState :=
  if urls = [] then reducer s .finishProcessing
  else
    let s1 := reducer s (.progressUpdate (markPendingMap s.progress urls))
    let s2 := urls.foldl
      (fun st u =>
        if u = [] then st
        else reducer st
          (.progressUpdate (objSet st.progress u (fetchItem (fetch u)))))
      s1
    reducer s2 .finishProcessing

/-- Model of retryFailed: the error subset in map iteration order; an empty
subset returns before any dispatch.  The second component lists the urls
handed to processUrls (hence fetched). -/
def retryFailedModel (s : AppState) (fetch : Str → FetchResult) :
    AppState × List Str :=
  let failedUrls :=
    (s.progress.filter (fun p => p.2.status = ProgressStatus.error)).map
      (fun p => p.1)
  if failedUrls = [] then (s, [])
  else (processUrlsModel (reducer s .startProcessing) failedUrls fetch,
    failedUrls)

/-! ## Packaging engine -/

structure FileSpec where
  filename : Str
  content : Str
deriving DecidableEq

/-- Characters kept by the filename regex; everything else becomes an
underscore. -/
def sanitizeChar (c : Nat) : Nat :=
  if (65 ≤ c ∧ c ≤ 90) ∨ (97 ≤ c ∧ c ≤ 122) ∨ (48 ≤ c ∧ c ≤ 57) ∨
      c = 46 ∨ c = 45 then c
  else 95

/-- Filename derivation for individual files. -/
def sanitizeUrl (u : Str) : Str := u.map sanitizeChar

def txtSuffix : Str := ofString ".txt"

/-- Decimal digits of a natural number as character codes; the fuel mirrors
division by ten and always suffices at fuel n + 1. -/
def natToDigitsGo : Nat → Nat → Str
  | 0, _ => []
  | fuel + 1, n =>
    if n < 10 then [48 + n] else natToDigitsGo fuel (n / 10) ++ [48 + n % 10]

def natToDigits (n : Nat) : Str := natToDigitsGo (n + 1) n

/-- String(n).padStart(3, zero). -/
def pad3 (n : Nat) : Str :=
  List.replicate (3 - (natToDigits n).length) 48 ++ natToDigits n

/-- White space in the sense of String.prototype.trim. -/
def isJsWhitespace (c : Nat) : Bool :=
  c = 0x20 ∨ c = 0x9 ∨ c = 0xA ∨ c = 0xB ∨ c = 0xC ∨ c = 0xD ∨ c = 0xA0 ∨
    c = 0x1680 ∨ (0x2000 ≤ c ∧ c ≤ 0x200A) ∨ c = 0x2028 ∨ c = 0x2029 ∨
    c = 0x202F ∨ c = 0x205F ∨ c = 0x3000 ∨ c = 0xFEFF

def jsTrim (s : Str) : Str :=
  ((s.dropWhile isJsWhitespace).reverse.dropWhile isJsWhitespace).reverse

/-- The replace of the trailing .txt (the regex backslash dot txt dollar). -/
def stripTxtSuffix (s : Str) : Str :=
  if txtSuffix.isSuffixOf s then s.take (s.length - 4) else s

/-- Combined file base name: trimmed input, defaulted when empty, with a
trailing .txt removed. -/
def combinedBaseFilename (combinedFilename : Str) : Str :=
  stripTxtSuffix
    (if jsTrim combinedFilename = [] then ofString "combined_content.txt"
     else jsTrim combinedFilename)

/-- Separator header naming the source url, as in the combined template. -/
def contentHeader (u : Str) : Str :=
  ofString "--- Content from: " ++ u ++ ofString " ---" ++ ofString "\n\n"

def combinedSeparator : Str := ofString "\n\n\n"

/-- Concatenation of all qualifying contents, each preceded by its header,
joined with the blank line separator. -/
def combinedContentOf (items : List (Str × Str)) : Str :=
  List.intercalate combinedSeparator
    (items.map (fun p => contentHeader p.1 ++ p.2))

/-- Chunking loop of the combined branch: consecutive slices of B bytes,
each decoded lossily, filenames numbered from one with three digit zero
padding.  The fuel mirrors the while loop; since the loop only runs with a
positive budget B, fuel equal to the byte length always suffices. -/
def splitLoopGo (bytes : List Nat) (B : Nat) (base : Str) :
    Nat → Nat → Nat → List FileSpec
  | 0, _, _ => []
  | fuel + 1, startIndex, fileCounter =>
    if startIndex < bytes.length then
      { filename := base ++ ofString "_" ++ pad3 fileCounter ++ txtSuffix,
        content := utf8Decode ((bytes.drop startIndex).take B) } ::
        splitLoopGo bytes B base fuel (startIndex + B) (fileCounter + 1)
    else []

/-- maxSizeInBytes: a positive maxSize means that many kilobytes; zero
means unbounded (Infinity in the source, modelled as none). -/
def maxBytesOf (maxSize : Nat) : Option Nat :=
  if 0 < maxSize then some (maxSize * 1024) else none

/-- The filesToCreate computation of startDownload, for both arrangements.
Individual: one file per item, truncated to the byte budget when the
encoding exceeds it.  Combined: one file when unbounded or within budget,
otherwise the chunking loop. -/
def buildFiles (items : List (Str × Str)) (fmt : ContentFormat)
    (maxB : Option Nat) (combinedFilename : Str) : List FileSpec :=
  match fmt with
  | .individual =>
    items.map (fun p =>
      let contentBytes := utf8Encode p.2
      let content :=
        match maxB with
        | some B =>
          if B < contentBytes.length then utf8Decode (contentBytes.take B)
          else p.2
        | none => p.2
      { filename := sanitizeUrl p.1 ++ txtSuffix, content := content })
  | .combined =>
    let combinedContent := combinedContentOf items
    let combinedContentBytes := utf8Encode combinedContent
    let base := combinedBaseFilename combinedFilename
    match maxB with
    | none => [{ filename := base ++ txtSuffix, content := combinedContent }]
    | some B =>
      if combinedContentBytes.length ≤ B then
        [{ filename := base ++ txtSuffix, content := combinedContent }]
      else splitLoopGo combinedContentBytes B base combinedContentBytes.length 0 1

/-- Target selection: the selection set, or all completed entries of the
progress map in iteration order. -/
def urlsToConsider (s : AppState) : List Str :=
  if s.downloadTarget = DownloadTarget.selected then s.selectedUrlsForDownload
  else
    (s.progress.filter (fun p => p.2.status = ProgressStatus.completed)).map
      (fun p => p.1)

/-- The completedItems filter of startDownload: targeted urls restricted to
entries that are completed and hold nonempty content (an empty string is
falsy in the source test item.content). -/
def qualifyingItems (m : ProgMap) (urls : List Str) : List (Str × Str) :=
  urls.filterMap (fun u =>
    match objGet m u with
    | some it =>
      match it.content with
      | some c =>
        if it.status = ProgressStatus.completed ∧ c ≠ [] then some (u, c)
        else none
      | none => none
    | none => none)

inductive DownloadOutcome
  | noContent
  | zipUnavailable
  | errorCaught
  | success
deriving DecidableEq

inductive SaveEvent
  | file (f : FileSpec)
  | zipArchive (files : List FileSpec)
deriving DecidableEq

/-- Environment of a download attempt: whether the JSZip global is loaded,
and whether packaging or saving throws (the catch all branch). -/
structure DownloadEnv where
  jszipAvailable : Bool
  packagingThrows : Bool

/-- Model of startDownload.  Returns the final state after all dispatches,
the outcome, and the save events handed to the browser.  Every exit path
ends in the finally dispatch of FINISH_PROCESSING; the early returns also
dispatch it before returning, exactly as the source does. -/
def startDownloadModel (s : AppState) (env : DownloadEnv) :
    AppState × DownloadOutcome × List SaveEvent :=
  let s0 := reducer s .startProcessing
  let completedItems := qualifyingItems s.progress (urlsToConsider s)
  if completedItems = [] then
    (reducer s0 .finishProcessing, .noContent, [])
  else
    let filesToCreate := buildFiles completedItems
      s.downloadOptions.contentFormat (maxBytesOf s.downloadOptions.maxSize)
      s.downloadOptions.combinedFilename
    if s.downloadOptions.packageFormat = PackageFormat.zip then
      if env.jszipAvailable = false then
        (reducer s0 .finishProcessing, .zipUnavailable, [])
      else if env.packagingThrows then
        (reducer s0 .finishProcessing, .errorCaught, [])
      else (reducer s0 .finishProcessing, .success,
        [SaveEvent.zipArchive filesToCreate])
    else
      if env.packagingThrows then
        (reducer s0 .finishProcessing, .errorCaught, [])
      else (reducer s0 .finishProcessing, .success,
        filesToCreate.map SaveEvent.file)

/-! ## Reachability

One step for every dispatch the app performs.  User interface actions are
guarded by the disabled attribute of their controls: they require the
processing flag to be clear, and a selection checkbox exists only for a
completed entry.  The dispatches performed inside a run (pending marking,
sequential resolution, the finish signal) are unguarded. -/

inductive Step : AppState → AppState → Prop
  | setUrls (s : AppState) (v : Str) (h : s.isProcessing = false) :
      Step s (reducer s (.setUrls v))
  | setOptions (s : AppState) (cf : Option ContentFormat)
      (pf : Option PackageFormat) (ms : Option Nat) (cfn : Option Str)
      (h : s.isProcessing = false) :
      Step s (reducer s (.setDownloadOptions cf pf ms cfn))
  | setTarget (s : AppState) (t : DownloadTarget)
      (h : s.isProcessing = false) :
      Step s (reducer s (.setDownloadTarget t))
  | toggle (s : AppState) (u : Str) (h : s.isProcessing = false)
      (hc : ∃ it, objGet s.progress u = some it ∧
        it.status = ProgressStatus.completed) :
      Step s (reducer s (.toggleUrlSelection u))
  | clear (s : AppState) (scope : ClearScope)
      (h : s.isProcessing = false) :
      Step s (reducer s (.clearProgress scope))
  | startProcessing (s : AppState) (h : s.isProcessing = false) :
      Step s (reducer s .startProcessing)
  | finishProcessing (s : AppState) :
      Step s (reducer s .finishProcessing)
  | markPending (s : AppState) (urls : List Str) :
      Step s (reducer s (.progressUpdate (markPendingMap s.progress urls)))
  | resolve (s : AppState) (u : Str) (r : FetchResult) :
      Step s (reducer s (.progressUpdate (objSet s.progress u (fetchItem r))))

/-- States reachable from the initial state through dispatched actions. -/
inductive Reachable : AppState → Prop
  | init : Reachable initialState
  | step {s s' : AppState} : Reachable s → Step s s' → Reachable s'

/-! ## Chunking loop lemmas -/

theorem splitLoopGo_length (bytes : List Nat) (B : Nat) (base : Str)
    (hB : 0 < B) :
    ∀ fuel startIndex fileCounter : Nat, bytes.length - startIndex ≤ fuel →
      (splitLoopGo bytes B base fuel startIndex fileCounter).length =
        (bytes.length - startIndex + B - 1) / B := by
  intro fuel
  induction fuel with
  | zero =>
    intro start ctr h
    simp only [splitLoopGo, List.length_nil]
    rw [show bytes.length - start = 0 from by omega,
      Nat.div_eq_of_lt (by omega)]
  | succ fuel ih =>
    intro start ctr h
    simp only [splitLoopGo]
    by_cases hs : start < bytes.length
    · rw [if_pos hs]
      simp only [List.length_cons]
      rw [ih (start + B) (ctr + 1) (by omega)]
      have hn : 0 < bytes.length - start := by omega
      have hrw : bytes.length - (start + B) = bytes.length - start - B := by
        omega
      rw [hrw]
      generalize bytes.length - start = n at hn ⊢
      by_cases hnb : B ≤ n
      · rw [show n - B + B - 1 = n - 1 from by omega,
          show n + B - 1 = n - 1 + B from by omega, Nat.add_div_right _ hB]
      · rw [show n - B = 0 from by omega, Nat.div_eq_of_lt (by omega),
          show n + B - 1 = n - 1 + B from by omega, Nat.add_div_right _ hB,
          Nat.div_eq_of_lt (by omega)]
    · rw [if_neg hs]
      simp only [List.length_nil]
      rw [show bytes.length - start = 0 from by omega,
        Nat.div_eq_of_lt (by omega)]

theorem splitLoopGo_eq (bytes : List Nat) (B : Nat) (base : Str)
    (hB : 0 < B) :
    ∀ fuel startIndex fileCounter : Nat, bytes.length - startIndex ≤ fuel →
      splitLoopGo bytes B base fuel startIndex fileCounter =
        (List.range ((bytes.length - startIndex + B - 1) / B)).map (fun i =>
          { filename := base ++ ofString "_" ++ pad3 (fileCounter + i) ++
              txtSuffix,
            content :=
              utf8Decode ((bytes.drop (startIndex + i * B)).take B) }) := by
  intro fuel
  induction fuel with
  | zero =>
    intro start ctr h
    simp only [splitLoopGo]
    rw [show bytes.length - start = 0 from by omega,
      Nat.div_eq_of_lt (by omega)]
    rfl
  | succ fuel ih =>
    intro start ctr h
    simp only [splitLoopGo]
    by_cases hs : start < bytes.length
    · rw [if_pos hs, ih (start + B) (ctr + 1) (by omega)]
      have hcount : bytes.length - start + B - 1 =
          (bytes.length - (start + B) + B - 1) + B ∨
          ((bytes.length - start + B - 1) / B = 1 ∧
            (bytes.length - (start + B) + B - 1) / B = 0) := by
        by_cases hnb : B ≤ bytes.length - start
        · left
          omega
        · right
          constructor
          · rw [show bytes.length - start + B - 1 =
              (bytes.length - start - 1) + B from by omega,
              Nat.add_div_right _ hB, Nat.div_eq_of_lt (by omega)]
          · rw [show bytes.length - (start + B) = 0 from by omega]
            exact Nat.div_eq_of_lt (by omega)
      have hsucc : (bytes.length - start + B - 1) / B =
          (bytes.length - (start + B) + B - 1) / B + 1 := by
        rcases hcount with hc | ⟨hc1, hc2⟩
        · rw [hc, Nat.add_div_right _ hB]
        · rw [hc1, hc2]
      rw [hsucc, List.range_succ_eq_map, List.map_cons, List.map_map]
      refine congrArg₂ List.cons ?_ (List.map_congr_left ?_)
      · simp only [Nat.add_zero, Nat.zero_mul]
      · intro i _
        dsimp only [Function.comp]
        have h1 : ctr + 1 + i = ctr + (i + 1) := by omega
        have h2 : start + B + i * B = start + (i + 1) * B := by ring
        rw [h1, h2]
    · rw [if_neg hs]
      rw [show bytes.length - start = 0 from by omega]
      rw [show (0 + B - 1) / B = 0 from Nat.div_eq_of_lt (by omega)]
      rfl

theorem chunks_flatten (bytes : List Nat) (B : Nat) (hB : 0 < B) :
    ∀ fuel startIndex : Nat, bytes.length - startIndex ≤ fuel →
      ((List.range ((bytes.length - startIndex + B - 1) / B)).map (fun i =>
        (bytes.drop (startIndex + i * B)).take B)).flatten =
        bytes.drop startIndex := by
  intro fuel
  induction fuel with
  | zero =>
    intro start h
    rw [show bytes.length - start = 0 from by omega]
    rw [show (0 + B - 1) / B = 0 from Nat.div_eq_of_lt (by omega)]
    simp only [List.range_zero, List.map_nil, List.flatten_nil]
    exact (List.drop_eq_nil_iff.mpr (by omega)).symm
  | succ fuel ih =>
    intro start h
    by_cases hs : start < bytes.length
    · have hsucc : (bytes.length - start + B - 1) / B =
          (bytes.length - (start + B) + B - 1) / B + 1 := by
        by_cases hnb : B ≤ bytes.length - start
        · rw [show bytes.length - start + B - 1 =
            (bytes.length - (start + B) + B - 1) + B from by omega,
            Nat.add_div_right _ hB]
        · rw [show bytes.length - (start + B) = 0 from by omega]
          rw [show (0 + B - 1) / B = 0 from Nat.div_eq_of_lt (by omega)]
          rw [show bytes.length - start + B - 1 =
              (bytes.length - start - 1) + B from by omega,
            Nat.add_div_right _ hB]
          rw [show (bytes.length - start - 1) / B = 0 from
            Nat.div_eq_of_lt (by omega)]
      rw [hsucc, List.range_succ_eq_map, List.map_cons, List.map_map,
        List.flatten_cons]
      have htail :
          (List.map ((fun i => (bytes.drop (start + i * B)).take B) ∘ Nat.succ)
            (List.range ((bytes.length - (start + B) + B - 1) / B))).flatten =
          bytes.drop (start + B) := by
        have hmap : List.map
            ((fun i => (bytes.drop (start + i * B)).take B) ∘ Nat.succ)
            (List.range ((bytes.length - (start + B) + B - 1) / B)) =
            List.map (fun i => (bytes.drop ((start + B) + i * B)).take B)
            (List.range ((bytes.length - (start + B) + B - 1) / B)) := by
          apply List.map_congr_left
          intro i _
          dsimp only [Function.comp]
          have h2 : start + (i + 1) * B = start + B + i * B := by ring
          rw [Nat.succ_eq_add_one, h2]
        rw [hmap]
        exact ih (start + B) (by omega)
      rw [htail]
      have hhead : start + 0 * B = start := by
        rw [Nat.zero_mul, Nat.add_zero]
      rw [hhead]
      have hdd : bytes.drop (start + B) = (bytes.drop start).drop B := by
        rw [List.drop_drop, Nat.add_comm]
      rw [hdd]
      exact List.take_append_drop B (bytes.drop start)
    · rw [show bytes.length - start = 0 from by omega]
      rw [show (0 + B - 1) / B = 0 from Nat.div_eq_of_lt (by omega)]
      simp only [List.range_zero, List.map_nil, List.flatten_nil]
      exact (List.drop_eq_nil_iff.mpr (by omega)).symm

/-! ## Claim theorems -/

/-- C10: when maxSize is positive (so the budget B = maxSize * 1024 is
positive) and the combined encoded length exceeds B, the chunking loop of
the combined branch terminates after exactly the ceiling of length over B
iterations, each iteration advancing the start index by B; the number of
emitted files equals that iteration count. -/
theorem claim10_chunk_loop_iterations (bytes : List Nat) (maxSize : Nat)
    (base : Str) (hm : 0 < maxSize) (hL : maxSize * 1024 < bytes.length) :
    (splitLoopGo bytes (maxSize * 1024) base bytes.length 0 1).length =
      (bytes.length + maxSize * 1024 - 1) / (maxSize * 1024) := by
  rw [splitLoopGo_length bytes (maxSize * 1024) base (by omega)
    bytes.length 0 1 (by omega)]
  rw [Nat.sub_zero]

/-- Witness for C10 at a 1025 byte buffer and a one kilobyte budget: two
iterations. -/
theorem claim10_chunk_loop_iterations_witness :
    0 < 1 ∧ 1 * 1024 < (List.replicate 1025 65).length ∧
      (splitLoopGo (List.replicate 1025 65) (1 * 1024) []
        (List.replicate 1025 65).length 0 1).length =
      ((List.replicate 1025 65).length + 1 * 1024 - 1) / (1 * 1024) :=
  ⟨by decide, by rw [List.length_replicate]; decide,
    claim10_chunk_loop_iterations (List.replicate 1025 65)
      1 [] (by decide) (by rw [List.length_replicate]; decide)⟩

/-- C7: a zero maxBytesPerFile means unbounded for both arrangements: the
individual branch emits every content unmodified, one file per entry, and
the combined branch emits exactly one file holding the full combined
content. -/
theorem claim7_zero_budget_never_splits (items : List (Str × Str))
    (fname : Str) :
    buildFiles items ContentFormat.individual (maxBytesOf 0) fname =
      items.map (fun p =>
        { filename := sanitizeUrl p.1 ++ txtSuffix, content := p.2 }) ∧
    buildFiles items ContentFormat.combined (maxBytesOf 0) fname =
      [{ filename := combinedBaseFilename fname ++ txtSuffix,
         content := combinedContentOf items }] := by
  constructor <;> rfl

/-- C6: both the export attempt and the extraction attempt clear the
processing flag on every exit path: the final state of startDownloadModel
has isProcessing false in all branches (no qualifying content, missing zip
capability, thrown error, success), and processUrlsModel ends with the
finish dispatch also on empty input. -/
theorem claim6_processing_flag_always_cleared (s : AppState)
    (env : DownloadEnv) (urls : List Str) (fetch : Str → FetchResult) :
    (startDownloadModel s env).1.isProcessing = false ∧
      (processUrlsModel s urls fetch).isProcessing = false := by
  constructor
  · unfold startDownloadModel
    dsimp only
    repeat' split
    all_goals rfl
  · unfold processUrlsModel
    split
    · rfl
    · rfl

/-- C9: an export attempt never modifies the progress map, the selection
set, the raw input text, the download target or the download options; the
final state differs from the initial one only in the processing flag,
which is set and then cleared on every path. -/
theorem claim9_startDownload_frame (s : AppState) (env : DownloadEnv) :
    (startDownloadModel s env).1.progress = s.progress ∧
    (startDownloadModel s env).1.selectedUrlsForDownload =
      s.selectedUrlsForDownload ∧
    (startDownloadModel s env).1.urlsToProcess = s.urlsToProcess ∧
    (startDownloadModel s env).1.downloadTarget = s.downloadTarget ∧
    (startDownloadModel s env).1.downloadOptions = s.downloadOptions ∧
    (startDownloadModel s env).1 = { s with isProcessing := false } := by
  have h : (startDownloadModel s env).1 = { s with isProcessing := false } := by
    unfold startDownloadModel
    dsimp only
    repeat' split
    all_goals rfl
  refine ⟨?_, ?_, ?_, ?_, ?_, h⟩ <;> rw [h]

/-- C5: with an empty qualifying set, the export fails with the no content
notice, produces no files, triggers no save event, and leaves the state
unchanged apart from the cleared processing flag. -/
theorem claim5_empty_qualifying_set (s : AppState) (env : DownloadEnv)
    (h : qualifyingItems s.progress (urlsToConsider s) = []) :
    startDownloadModel s env =
      ({ s with isProcessing := false }, DownloadOutcome.noContent, []) := by
  unfold startDownloadModel
  dsimp only
  rw [if_pos h]
  rfl

/-- Witness for C5 at the initial state: nothing qualifies, so the export
fails with the no content notice. -/
theorem claim5_empty_qualifying_set_witness :
    qualifyingItems initialState.progress (urlsToConsider initialState) = [] ∧
      startDownloadModel initialState ⟨true, false⟩ =
        ({ initialState with isProcessing := false },
          DownloadOutcome.noContent, []) :=
  ⟨rfl, claim5_empty_qualifying_set initialState ⟨true, false⟩ rfl⟩

/-- C8: retryFailed on a progress map without error entries is a no-op:
the whole state is returned unchanged and no url is handed to the fetch
collaborator. -/
theorem claim8_retryFailed_noop (s : AppState) (fetch : Str → FetchResult)
    (h : ∀ p ∈ s.progress, p.2.status ≠ ProgressStatus.error) :
    retryFailedModel s fetch = (s, []) := by
  have hf : s.progress.filter
      (fun p => p.2.status = ProgressStatus.error) = [] := by
    rw [List.filter_eq_nil_iff]
    intro p hp
    simp only [decide_eq_true_eq]
    exact h p hp
  unfold retryFailedModel
  dsimp only
  rw [hf, List.map_nil, if_pos rfl]

/-- Witness for C8 at the initial state: the empty map has no error entry
and retryFailed changes nothing. -/
theorem claim8_retryFailed_noop_witness :
    (∀ p ∈ initialState.progress, p.2.status ≠ ProgressStatus.error) ∧
      retryFailedModel initialState (fun _ => FetchResult.err []) =
        (initialState, []) :=
  ⟨by intro p hp; exact absurd hp (List.not_mem_nil p),
    claim8_retryFailed_noop initialState (fun _ => FetchResult.err [])
      (by intro p hp; exact absurd hp (List.not_mem_nil p))⟩

/-! ## The progress entry invariant (C3) -/

/-- Exactly one of the three entry states holds: content defined with
status completed, error message defined with status error, or status
pending with neither field defined. -/
def entryExclusive (it : ProgressItem) : Prop :=
  (it.content.isSome = true ∧ it.status = ProgressStatus.completed ∧
    it.error.isSome = false ∧ it.status ≠ ProgressStatus.pending) ∨
  (it.error.isSome = true ∧ it.status = ProgressStatus.error ∧
    it.content.isSome = false ∧ it.status ≠ ProgressStatus.pending) ∨
  (it.status = ProgressStatus.pending ∧ it.content.isSome = false ∧
    it.error.isSome = false)

/-- Every entry of the map satisfies the exclusivity invariant. -/
def mapExclusive (m : ProgMap) : Prop := ∀ p ∈ m, entryExclusive p.2

theorem pendingItem_exclusive : entryExclusive pendingItem := by
  right; right
  exact ⟨rfl, rfl, rfl⟩

theorem fetchItem_exclusive (r : FetchResult) : entryExclusive (fetchItem r) := by
  cases r with
  | ok c =>
    left
    refine ⟨rfl, rfl, rfl, ?_⟩
    intro hcon
    exact ProgressStatus.noConfusion hcon
  | err m =>
    right; left
    refine ⟨rfl, rfl, rfl, ?_⟩
    intro hcon
    exact ProgressStatus.noConfusion hcon

theorem mapExclusive_objSet (m : ProgMap) (u : Str) (it : ProgressItem)
    (hm : mapExclusive m) (hit : entryExclusive it) :
    mapExclusive (objSet m u it) := by
  intro p hp
  unfold objSet at hp
  split at hp
  · rw [List.mem_map] at hp
    obtain ⟨q, hq, hpq⟩ := hp
    subst hpq
    by_cases hqu : q.1 = u
    · rw [if_pos hqu]
      exact hit
    · rw [if_neg hqu]
      exact hm q hq
  · rw [List.mem_append] at hp
    rcases hp with hp | hp
    · exact hm p hp
    · rw [List.mem_singleton] at hp
      subst hp
      exact hit

theorem mapExclusive_markPending (urls : List Str) (m : ProgMap)
    (hm : mapExclusive m) : mapExclusive (markPendingMap m urls) := by
  unfold markPendingMap
  induction urls generalizing m with
  | nil => exact hm
  | cons u urls ih =>
    rw [List.foldl_cons]
    apply ih
    by_cases hu : u = []
    · rw [if_pos hu]
      exact hm
    · rw [if_neg hu]
      exact mapExclusive_objSet m u pendingItem hm pendingItem_exclusive

theorem mapExclusive_filter (m : ProgMap) (q : Str × ProgressItem → Bool)
    (hm : mapExclusive m) : mapExclusive (m.filter q) :=
  fun p hp => hm p (List.mem_of_mem_filter hp)

theorem mapExclusive_step {s s' : AppState} (hstep : Step s s')
    (ih : mapExclusive s.progress) : mapExclusive s'.progress := by
  cases hstep with
  | setUrls v h => exact ih
  | setOptions cf pf ms cfn h => exact ih
  | setTarget t h => exact ih
  | toggle u h hc =>
    have hpr : (reducer s (.toggleUrlSelection u)).progress = s.progress := by
      show (if s.selectedUrlsForDownload.contains u then
          { s with selectedUrlsForDownload :=
              setDelete s.selectedUrlsForDownload u }
        else
          { s with selectedUrlsForDownload :=
              s.selectedUrlsForDownload ++ [u] }).progress = s.progress
      split <;> rfl
    rw [hpr]
    exact ih
  | clear scope h =>
    cases scope with
    | all => intro p hp; exact absurd hp (List.not_mem_nil p)
    | completed => exact mapExclusive_filter _ _ ih
    | failed => exact mapExclusive_filter _ _ ih
  | startProcessing h => exact ih
  | finishProcessing => exact ih
  | markPending urls => exact mapExclusive_markPending urls _ ih
  | resolve u r => exact mapExclusive_objSet _ _ _ ih (fetchItem_exclusive r)

theorem reachable_mapExclusive (s : AppState) (hs : Reachable s) :
    mapExclusive s.progress := by
  induction hs with
  | init => intro p hp; exact absurd hp (List.not_mem_nil p)
  | step hr hstep ih => exact mapExclusive_step hstep ih

/-- C3: in every state reachable through the reducer and the dispatched
extraction actions, every entry of the progress map is in exactly one of
the three legal shapes: content defined and completed, error message
defined and error, or pending with neither defined; in particular no entry
has both content and error message defined. -/
theorem claim3_progress_entry_exclusive (s : AppState) (hs : Reachable s)
    (u : Str) (it : ProgressItem) (hmem : (u, it) ∈ s.progress) :
    entryExclusive it ∧ ¬ (it.content.isSome = true ∧ it.error.isSome = true) := by
  have hmap : mapExclusive s.progress :=
    reachable_mapExclusive s hs
  have hex := hmap (u, it) hmem
  refine ⟨hex, ?_⟩
  rcases hex with ⟨_, _, he, _⟩ | ⟨_, _, hc, _⟩ | ⟨_, hc, he⟩
  · intro ⟨_, h2⟩
    rw [he] at h2
    exact Bool.false_ne_true h2
  · intro ⟨h1, _⟩
    rw [hc] at h1
    exact Bool.false_ne_true h1
  · intro ⟨h1, _⟩
    rw [hc] at h1
    exact Bool.false_ne_true h1

/-- Witness for C3: after the initial state marks one url pending, that
entry satisfies the exclusivity invariant. -/
theorem claim3_progress_entry_exclusive_witness :
    entryExclusive pendingItem ∧
      ¬ (pendingItem.content.isSome = true ∧ pendingItem.error.isSome = true) :=
  claim3_progress_entry_exclusive
    (reducer initialState
      (.progressUpdate (markPendingMap initialState.progress [[117]])))
    (Reachable.step Reachable.init (Step.markPending initialState [[117]]))
    [117] pendingItem (by decide)

/-! ## Selection pruning (C4) -/

theorem foldl_setDelete_eq_filter (q : ProgressItem → Bool) (ps : ProgMap) :
    ∀ sel : List Str,
      ps.foldl (fun sel p => if q p.2 then setDelete sel p.1 else sel) sel =
        sel.filter (fun u =>
          !(ps.any (fun p => q p.2 && decide (p.1 = u)))) := by
  induction ps with
  | nil =>
    intro sel
    simp
  | cons p ps ih =>
    intro sel
    rw [List.foldl_cons]
    by_cases hq : q p.2
    · rw [if_pos hq, ih]
      unfold setDelete
      rw [List.filter_filter]
      apply List.filter_congr
      intro u _
      by_cases hup : u = p.1
      · subst hup
        simp [List.any_cons, hq]
      · have hpu : ¬ p.1 = u := fun h => hup h.symm
        simp [List.any_cons, hq, hup, hpu]
    · rw [if_neg hq, ih]
      apply List.filter_congr
      intro u _
      simp [List.any_cons, hq]

/-- C4 amended: members are pruned from the selection set exactly when a
clear action removes their entry: clearing all empties the selection, and
clearing completed or failed retains exactly the selected urls whose entry
does not match the cleared status.  Re-submission to pending performs no
pruning (see the counterexample), so a selection member need not refer to
a completed entry. -/
theorem claim4_amended_selection_pruned_on_clear (s : AppState) :
    (reducer s (Action.clearProgress ClearScope.all)).selectedUrlsForDownload
      = [] ∧
    (reducer s
        (Action.clearProgress ClearScope.completed)).selectedUrlsForDownload =
      s.selectedUrlsForDownload.filter (fun u =>
        !(s.progress.any (fun p =>
          clearMatches ClearScope.completed p.2 && decide (p.1 = u)))) ∧
    (reducer s
        (Action.clearProgress ClearScope.failed)).selectedUrlsForDownload =
      s.selectedUrlsForDownload.filter (fun u =>
        !(s.progress.any (fun p =>
          clearMatches ClearScope.failed p.2 && decide (p.1 = u)))) :=
  ⟨rfl,
    foldl_setDelete_eq_filter (clearMatches ClearScope.completed) s.progress
      s.selectedUrlsForDownload,
    foldl_setDelete_eq_filter (clearMatches ClearScope.failed) s.progress
      s.selectedUrlsForDownload⟩

def c4s1 : AppState := reducer initialState Action.startProcessing

def c4s2 : AppState :=
  reducer c4s1 (Action.progressUpdate (markPendingMap c4s1.progress [[117]]))

def c4s3 : AppState :=
  reducer c4s2 (Action.progressUpdate
    (objSet c4s2.progress [117] (fetchItem (FetchResult.ok [97]))))

def c4s4 : AppState := reducer c4s3 Action.finishProcessing

def c4s5 : AppState := reducer c4s4 (Action.toggleUrlSelection [117])

def c4s6 : AppState := reducer c4s5 Action.startProcessing

def c4s7 : AppState :=
  reducer c4s6 (Action.progressUpdate (markPendingMap c4s6.progress [[117]]))

/-- Counterexample to C4: a url is fetched to completion, selected for
download, then re-submitted; after the bulk pending marking the url is
still in the selection set while its entry is pending, so the claimed
invariant that every selection member has status completed fails, and
re-submission to pending does not prune the selection. -/
theorem claim4_counterexample :
    Reachable c4s7 ∧ [117] ∈ c4s7.selectedUrlsForDownload ∧
      objGet c4s7.progress [117] = some pendingItem ∧
      pendingItem.status ≠ ProgressStatus.completed := by
  refine ⟨?_, by decide, by decide, by decide⟩
  exact Reachable.step
    (Reachable.step
      (Reachable.step
        (Reachable.step
          (Reachable.step
            (Reachable.step
              (Reachable.step Reachable.init
                (Step.startProcessing initialState rfl))
              (Step.markPending c4s1 [[117]]))
            (Step.resolve c4s2 [117] (FetchResult.ok [97])))
          (Step.finishProcessing c4s3))
        (Step.toggle c4s4 [117] (by decide)
          ⟨fetchItem (FetchResult.ok [97]), by decide, by decide⟩))
      (Step.startProcessing c4s5 (by decide)))
    (Step.markPending c4s6 [[117]])

/-! ## Individual truncation (C1) -/

/-- C1 amended: with a positive budget B = maxSize * 1024, the individual
arrangement emits exactly one file per qualifying entry; for an entry
whose encoded content exceeds B, the emitted content is the lossy decoding
of exactly the first B encoded bytes, and its UTF-8 re-encoding has length
at most B + 2 (not B: when the cut lands inside a multi byte character the
decoder replaces up to three dangling bytes by the three byte encoding of
U+FFFD, so up to two bytes beyond the budget can appear). -/
theorem buildFiles_individual_get (items : List (Str × Str))
    (maxSize : Nat) (fname : Str) (hm : 0 < maxSize) (i : Nat)
    (url content : Str) (hitem : items[i]? = some (url, content))
    (hlen : maxSize * 1024 < (utf8Encode content).length) :
    (buildFiles items ContentFormat.individual (maxBytesOf maxSize)
        fname)[i]? =
      some { filename := sanitizeUrl url ++ txtSuffix,
             content :=
               utf8Decode ((utf8Encode content).take (maxSize * 1024)) } := by
  have hmb : maxBytesOf maxSize = some (maxSize * 1024) := by
    unfold maxBytesOf
    rw [if_pos hm]
  unfold buildFiles
  rw [List.getElem?_map, hitem, Option.map_some']
  dsimp only
  rw [hmb]
  dsimp only
  rw [if_pos hlen]

theorem claim1_amended_individual_truncation (items : List (Str × Str))
    (maxSize : Nat) (fname : Str) (hm : 0 < maxSize) :
    (buildFiles items ContentFormat.individual (maxBytesOf maxSize)
        fname).length = items.length ∧
    ∀ i : Nat, ∀ url content : Str, items[i]? = some (url, content) →
      ValidStr content → maxSize * 1024 < (utf8Encode content).length →
      (buildFiles items ContentFormat.individual (maxBytesOf maxSize)
          fname)[i]? =
        some { filename := sanitizeUrl url ++ txtSuffix,
               content :=
                 utf8Decode ((utf8Encode content).take (maxSize * 1024)) } ∧
      (utf8Encode (utf8Decode
          ((utf8Encode content).take (maxSize * 1024)))).length ≤
        maxSize * 1024 + 2 := by
  constructor
  · unfold buildFiles
    rw [List.length_map]
  · intro i url content hitem hvalid hlen
    exact ⟨buildFiles_individual_get items maxSize fname hm i url content
        hitem hlen,
      truncated_reencode_length_le content hvalid (maxSize * 1024) hlen⟩

theorem utf8Encode_replicate_length (n c : Nat) :
    (utf8Encode (List.replicate n c)).length =
      n * (utf8EncodeChar c).length := by
  induction n with
  | zero =>
    rw [List.replicate_zero, utf8Encode_nil, List.length_nil, Nat.zero_mul]
  | succ n ih =>
    rw [List.replicate_succ, utf8Encode_cons, List.length_append, ih]
    ring

theorem validStr_replicate (n c : Nat) (hc : ValidScalar c) :
    ValidStr (List.replicate n c) :=
  fun x hx => (List.eq_of_mem_replicate hx) ▸ hc

theorem validStr_cons {c : Nat} {s : Str} (hc : ValidScalar c)
    (hs : ValidStr s) : ValidStr (c :: s) := by
  intro x hx
  rcases List.mem_cons.mp hx with hx | hx
  · exact hx ▸ hc
  · exact hs x hx

theorem validStr_append {s₁ s₂ : Str} (h₁ : ValidStr s₁) (h₂ : ValidStr s₂) :
    ValidStr (s₁ ++ s₂) := by
  intro x hx
  rcases List.mem_append.mp hx with hx | hx
  · exact h₁ x hx
  · exact h₂ x hx

/-- Taking up to the k-th byte of the character following an encoded
prefix. -/
theorem take_encode_append (s₁ : Str) (c : Nat) (s₂ : Str) (k : Nat)
    (hk : k ≤ (utf8EncodeChar c).length) :
    (utf8Encode (s₁ ++ c :: s₂)).take ((utf8Encode s₁).length + k) =
      utf8Encode s₁ ++ (utf8EncodeChar c).take k := by
  rw [utf8Encode_append, utf8Encode_cons, List.take_append_eq_append_take,
    List.take_of_length_le (by omega)]
  congr 1
  rw [show (utf8Encode s₁).length + k - (utf8Encode s₁).length = k from by
    omega]
  rw [List.take_append_eq_append_take,
    show k - (utf8EncodeChar c).length = 0 from by omega, List.take_zero,
    List.append_nil]

/-- Decoding a well formed prefix followed by an incomplete character
yields the prefix and one replacement character. -/
theorem utf8Decode_encode_partial (s₁ : Str) (hs₁ : ValidStr s₁) (c k : Nat)
    (hc : ValidScalar c) (hk1 : 1 ≤ k) (hk2 : k < (utf8EncodeChar c).length) :
    utf8Decode (utf8Encode s₁ ++ (utf8EncodeChar c).take k) =
      s₁ ++ [0xFFFD] := by
  rw [utf8Decode_encode_append s₁ hs₁,
    utf8Decode_take_encodeChar c hc k hk1 hk2]

/-- Witness for C1 amended at a content of 342 three byte characters
(1026 encoded bytes) and a one kilobyte budget. -/
theorem claim1_amended_individual_truncation_witness :
    0 < 1 ∧ ValidStr (List.replicate 342 0x3042) ∧
      1 * 1024 < (utf8Encode (List.replicate 342 0x3042)).length ∧
      (utf8Encode (utf8Decode ((utf8Encode (List.replicate 342 0x3042)).take
        (1 * 1024)))).length ≤ 1 * 1024 + 2 :=
  ⟨by decide, validStr_replicate 342 0x3042 (by decide),
    by rw [utf8Encode_replicate_length]; decide,
    ((claim1_amended_individual_truncation
      [([117], List.replicate 342 0x3042)] 1 [] (by decide)).2
      0 [117] (List.replicate 342 0x3042) rfl
      (validStr_replicate 342 0x3042 (by decide))
      (by rw [utf8Encode_replicate_length]; decide)).2⟩

/-- Counterexample to C1 as stated: a 2000 byte content (666 three byte
characters followed by one two byte character) truncated to the one
kilobyte budget decodes to 341 characters plus one replacement character
and re-encodes to 1026 bytes, which exceeds the budget of 1024.  The
claimed bound of at most B bytes on the emitted file is therefore false. -/
theorem claim1_counterexample :
    (utf8Encode (List.replicate 666 0x3042 ++ [0xE9])).length = 2000 ∧
    buildFiles [([117], List.replicate 666 0x3042 ++ [0xE9])]
        ContentFormat.individual (maxBytesOf 1) [] =
      [{ filename := sanitizeUrl [117] ++ txtSuffix,
         content := List.replicate 341 0x3042 ++ [0xFFFD] }] ∧
    (utf8Encode (List.replicate 341 0x3042 ++ [0xFFFD])).length = 1026 ∧
    1 * 1024 < (utf8Encode (List.replicate 341 0x3042 ++ [0xFFFD])).length := by
  have hlen2000 : (utf8Encode (List.replicate 666 0x3042 ++ [0xE9])).length
      = 2000 := by
    rw [utf8Encode_append, List.length_append, utf8Encode_replicate_length]
    decide
  have hlen1026 : (utf8Encode (List.replicate 341 0x3042 ++ [0xFFFD])).length
      = 1026 := by
    rw [utf8Encode_append, List.length_append, utf8Encode_replicate_length]
    decide
  have hsplit : List.replicate 666 0x3042 ++ [0xE9] =
      List.replicate 341 0x3042 ++
        (0x3042 :: (List.replicate 324 0x3042 ++ [0xE9])) := by
    rw [← List.cons_append, ← List.replicate_succ,
      show (324 : Nat) + 1 = 325 from rfl,
      ← List.append_assoc, ← List.replicate_add]
  have htake : (utf8Encode (List.replicate 666 0x3042 ++ [0xE9])).take 1024 =
      utf8Encode (List.replicate 341 0x3042) ++
        (utf8EncodeChar 0x3042).take 1 := by
    rw [hsplit]
    have h1023 : (utf8Encode (List.replicate 341 0x3042)).length = 1023 := by
      rw [utf8Encode_replicate_length]
      decide
    have h1024 : (1024 : Nat) =
        (utf8Encode (List.replicate 341 0x3042)).length + 1 := by
      rw [h1023]
    rw [h1024]
    exact take_encode_append (List.replicate 341 0x3042) 0x3042
      (List.replicate 324 0x3042 ++ [0xE9]) 1 (by decide)
  have hdec : utf8Decode
      ((utf8Encode (List.replicate 666 0x3042 ++ [0xE9])).take 1024) =
      List.replicate 341 0x3042 ++ [0xFFFD] := by
    rw [htake]
    exact utf8Decode_encode_partial (List.replicate 341 0x3042)
      (validStr_replicate 341 0x3042 (by decide)) 0x3042 1 (by decide)
      (by decide) (by decide)
  refine ⟨hlen2000, ?_, hlen1026, by rw [hlen1026]; decide⟩
  have hget := buildFiles_individual_get
    [([117], List.replicate 666 0x3042 ++ [0xE9])] 1 [] (by decide)
    0 [117] (List.replicate 666 0x3042 ++ [0xE9]) rfl
    (by rw [hlen2000]; decide)
  rw [show (1 : Nat) * 1024 = 1024 from rfl, hdec] at hget
  have hlen1 : (buildFiles [([117], List.replicate 666 0x3042 ++ [0xE9])]
      ContentFormat.individual (maxBytesOf 1) []).length = 1 := by
    unfold buildFiles
    rw [List.length_map]
    rfl
  apply List.ext_getElem?
  intro i
  match i with
  | 0 => rw [hget]; rfl
  | n + 1 =>
    rw [List.getElem?_eq_none (by rw [hlen1]; omega),
      List.getElem?_eq_none (by simp)]

/-! ## Combined chunking (C2) -/

theorem not_last_chunk_lt (len B i : Nat) (hB : 0 < B)
    (hi : i + 1 < (len + B - 1) / B) : i * B + B < len := by
  have h1 : i + 2 ≤ (len + B - 1) / B := hi
  have h2 : (i + 2) * B ≤ len + B - 1 := (Nat.le_div_iff_mul_le hB).mp h1
  have h3 : (i + 2) * B = i * B + 2 * B := by ring
  rw [h3] at h2
  generalize i * B = x at h2 ⊢
  omega

/-- When the budget is positive and exceeded, the combined branch is
exactly the chunking loop. -/
theorem buildFiles_combined_split (items : List (Str × Str)) (maxSize : Nat)
    (fname : Str) (hm : 0 < maxSize)
    (hL : maxSize * 1024 < (utf8Encode (combinedContentOf items)).length) :
    buildFiles items ContentFormat.combined (maxBytesOf maxSize) fname =
      splitLoopGo (utf8Encode (combinedContentOf items)) (maxSize * 1024)
        (combinedBaseFilename fname)
        (utf8Encode (combinedContentOf items)).length 0 1 := by
  have hmb : maxBytesOf maxSize = some (maxSize * 1024) := by
    unfold maxBytesOf
    rw [if_pos hm]
  unfold buildFiles
  dsimp only
  rw [hmb]
  dsimp only
  rw [if_neg (by omega)]

theorem eq_nil_of_encode_length_eq_zero {w : Str}
    (h : (utf8Encode w).length = 0) : w = [] := by
  cases w with
  | nil => rfl
  | cons c w =>
    rw [utf8Encode_cons, List.length_append] at h
    have hpos := utf8EncodeChar_length_pos c
    omega

/-- Of two string prefixes of the same string, the one whose encoding is
shorter is a prefix of the other: encoded byte positions order the
character boundaries. -/
theorem prefix_of_encode_le {s s₁ u₁ : Str} (h1 : s₁ <+: s) (h2 : u₁ <+: s)
    (hle : (utf8Encode s₁).length ≤ (utf8Encode u₁).length) : s₁ <+: u₁ := by
  rcases List.prefix_or_prefix_of_prefix h1 h2 with h | h
  · exact h
  · obtain ⟨w, hw⟩ := h
    have henc : utf8Encode s₁ = utf8Encode u₁ ++ utf8Encode w := by
      rw [← hw, utf8Encode_append]
    have hwlen : (utf8Encode w).length = 0 := by
      have hcong := congrArg List.length henc
      rw [List.length_append] at hcong
      omega
    rw [eq_nil_of_encode_length_eq_zero hwlen, List.append_nil] at hw
    rw [hw]

/-- Two decompositions of a string at ordered byte boundaries yield the
segment between the boundaries. -/
theorem boundary_segment {s s₁ s₂ u₁ u₂ : Str}
    (h1 : s = s₁ ++ s₂) (h2 : s = u₁ ++ u₂)
    (hle : (utf8Encode s₁).length ≤ (utf8Encode u₁).length) :
    ∃ t : Str, u₁ = s₁ ++ t ∧ s = s₁ ++ (t ++ u₂) := by
  have hp : s₁ <+: u₁ :=
    prefix_of_encode_le ⟨s₂, h1.symm⟩ ⟨u₂, h2.symm⟩ hle
  obtain ⟨t, ht⟩ := hp
  refine ⟨t, ht.symm, ?_⟩
  rw [h2, ← ht, List.append_assoc]

/-- A byte slice delimited by character boundaries is the encoding of the
string segment between them. -/
theorem segment_take_drop (s s₁ t u₂ : Str) (hs : s = s₁ ++ (t ++ u₂))
    (B : Nat)
    (hlen : (utf8Encode t).length = B ∨
      (u₂ = [] ∧ (utf8Encode t).length ≤ B)) :
    ((utf8Encode s).drop (utf8Encode s₁).length).take B = utf8Encode t := by
  rw [hs, utf8Encode_append, List.drop_left, utf8Encode_append]
  rcases hlen with hB | ⟨hnil, hle⟩
  · rw [← hB, List.take_left]
  · rw [hnil, utf8Encode_nil, List.append_nil,
      List.take_of_length_le hle]

theorem chunk_start_lt (L B i : Nat) (hB : 0 < B) (hL : 0 < L)
    (hi : i < (L + B - 1) / B) : i * B < L := by
  have h1 : i + 1 ≤ (L + B - 1) / B := hi
  have h2 : (i + 1) * B ≤ L + B - 1 := (Nat.le_div_iff_mul_le hB).mp h1
  have h3 : (i + 1) * B = i * B + B := by ring
  rw [h3] at h2
  generalize i * B = x at h2 ⊢
  omega

/-- In an ASCII string every byte position is a character boundary. -/
theorem ascii_boundaries (s : Str) (hascii : ∀ b ∈ s, b < 0x80) (n : Nat)
    (hn : n < (utf8Encode s).length) :
    ∃ s₁ s₂ : Str, s = s₁ ++ s₂ ∧ (utf8Encode s₁).length = n := by
  have hslen : (utf8Encode s).length = s.length := by
    rw [utf8Encode_ascii hascii]
  refine ⟨s.take n, s.drop n, (List.take_append_drop n s).symm, ?_⟩
  have hta : ∀ b ∈ s.take n, b < 0x80 :=
    fun b hb => hascii b (List.mem_of_mem_take hb)
  rw [utf8Encode_ascii hta, List.length_take]
  omega

theorem encodeChar_subset_encode {c : Nat} {s : Str} (hc : c ∈ s) :
    ∀ b ∈ utf8EncodeChar c, b ∈ utf8Encode s := by
  intro b hb
  unfold utf8Encode
  exact List.mem_flatten.mpr
    ⟨utf8EncodeChar c, List.mem_map_of_mem utf8EncodeChar hc, hb⟩

/-- A string whose encoding is all ASCII bytes is itself all ASCII: any
larger scalar would contribute a lead byte of at least 0xC2. -/
theorem scalar_ascii_of_encode_ascii {s : Str}
    (h : ∀ b ∈ utf8Encode s, b < 0x80) : ∀ c ∈ s, c < 0x80 := by
  intro c hc
  by_contra hge
  push_neg at hge
  have hlead : ∃ b ∈ utf8EncodeChar c, 0x80 ≤ b := by
    unfold utf8EncodeChar
    rw [if_neg (by omega)]
    split
    · exact ⟨0xC0 + c / 0x40, List.mem_cons_self _ _, by omega⟩
    · split
      · exact ⟨0xE0 + c / 0x1000, List.mem_cons_self _ _, by omega⟩
      · exact ⟨0xF0 + c / 0x40000, List.mem_cons_self _ _, by omega⟩
  obtain ⟨b, hb, hble⟩ := hlead
  have hlt := h b (encodeChar_subset_encode hc b hb)
  omega

/-- C2 amended: with a positive budget B = maxSize * 1024 exceeded by the
combined encoded length L, the engine emits exactly the ceiling of L over
B files; file i (zero based) carries the lossy decoding of the consecutive
chunk of bytes from i * B of length at most B, and its filename carries
the zero padded three digit number i + 1; only the last chunk may be
shorter than B; the concatenation of the raw byte chunks reconstructs the
original stream exactly.  The decoded-then-re-encoded concatenation
reconstructs the original stream whenever every chunk boundary inside the
stream falls on a character boundary of the encoding, and in particular
for ASCII content; a boundary inside a multi byte character can break
reconstruction, as the counterexample exhibits. -/
theorem claim2_amended_combined_chunking (items : List (Str × Str))
    (maxSize : Nat) (fname : Str) (hm : 0 < maxSize)
    (hL : maxSize * 1024 < (utf8Encode (combinedContentOf items)).length) :
    buildFiles items ContentFormat.combined (maxBytesOf maxSize) fname =
      (List.range (((utf8Encode (combinedContentOf items)).length +
          maxSize * 1024 - 1) / (maxSize * 1024))).map (fun i =>
        { filename := combinedBaseFilename fname ++ ofString "_" ++
            pad3 (1 + i) ++ txtSuffix,
          content := utf8Decode (((utf8Encode
            (combinedContentOf items)).drop (i * (maxSize * 1024))).take
            (maxSize * 1024)) }) ∧
    (∀ i : Nat,
      (((utf8Encode (combinedContentOf items)).drop
        (i * (maxSize * 1024))).take (maxSize * 1024)).length ≤
        maxSize * 1024) ∧
    (∀ i : Nat, i + 1 < ((utf8Encode (combinedContentOf items)).length +
        maxSize * 1024 - 1) / (maxSize * 1024) →
      (((utf8Encode (combinedContentOf items)).drop
        (i * (maxSize * 1024))).take (maxSize * 1024)).length =
        maxSize * 1024) ∧
    ((List.range (((utf8Encode (combinedContentOf items)).length +
        maxSize * 1024 - 1) / (maxSize * 1024))).map (fun i =>
      ((utf8Encode (combinedContentOf items)).drop
        (i * (maxSize * 1024))).take (maxSize * 1024))).flatten =
      utf8Encode (combinedContentOf items) ∧
    (ValidStr (combinedContentOf items) →
      (∀ i : Nat, 0 < i → i * (maxSize * 1024) <
          (utf8Encode (combinedContentOf items)).length →
        ∃ s₁ s₂ : Str, combinedContentOf items = s₁ ++ s₂ ∧
          (utf8Encode s₁).length = i * (maxSize * 1024)) →
      ((buildFiles items ContentFormat.combined (maxBytesOf maxSize)
        fname).map (fun f => utf8Encode f.content)).flatten =
        utf8Encode (combinedContentOf items)) ∧
    ((∀ b ∈ utf8Encode (combinedContentOf items), b < 0x80) →
      ((buildFiles items ContentFormat.combined (maxBytesOf maxSize)
        fname).map (fun f => utf8Encode f.content)).flatten =
        utf8Encode (combinedContentOf items)) := by
  have hB : 0 < maxSize * 1024 := by omega
  have heq : buildFiles items ContentFormat.combined (maxBytesOf maxSize)
      fname =
      (List.range (((utf8Encode (combinedContentOf items)).length +
          maxSize * 1024 - 1) / (maxSize * 1024))).map (fun i =>
        { filename := combinedBaseFilename fname ++ ofString "_" ++
            pad3 (1 + i) ++ txtSuffix,
          content := utf8Decode (((utf8Encode
            (combinedContentOf items)).drop (i * (maxSize * 1024))).take
            (maxSize * 1024)) }) := by
    rw [buildFiles_combined_split items maxSize fname hm hL,
      splitLoopGo_eq (utf8Encode (combinedContentOf items))
        (maxSize * 1024) (combinedBaseFilename fname) hB
        (utf8Encode (combinedContentOf items)).length 0 1 (by omega)]
    simp only [Nat.sub_zero, Nat.zero_add]
  have hflat : ((List.range (((utf8Encode (combinedContentOf items)).length +
      maxSize * 1024 - 1) / (maxSize * 1024))).map (fun i =>
      ((utf8Encode (combinedContentOf items)).drop
        (i * (maxSize * 1024))).take (maxSize * 1024))).flatten =
      utf8Encode (combinedContentOf items) := by
    have h4 := chunks_flatten (utf8Encode (combinedContentOf items))
      (maxSize * 1024) hB (utf8Encode (combinedContentOf items)).length 0
      (by omega)
    simp only [Nat.sub_zero, Nat.zero_add, List.drop_zero] at h4
    exact h4
  have hrecon : ValidStr (combinedContentOf items) →
      (∀ i : Nat, 0 < i → i * (maxSize * 1024) <
          (utf8Encode (combinedContentOf items)).length →
        ∃ s₁ s₂ : Str, combinedContentOf items = s₁ ++ s₂ ∧
          (utf8Encode s₁).length = i * (maxSize * 1024)) →
      ((buildFiles items ContentFormat.combined (maxBytesOf maxSize)
        fname).map (fun f => utf8Encode f.content)).flatten =
        utf8Encode (combinedContentOf items) := by
    intro hvalid hbound
    rw [heq, List.map_map]
    refine Eq.trans (congrArg List.flatten (List.map_congr_left ?_)) hflat
    intro i hi
    rw [List.mem_range] at hi
    dsimp only [Function.comp]
    have hiB : (i + 1) * (maxSize * 1024) =
        i * (maxSize * 1024) + maxSize * 1024 := by ring
    have hstart : i * (maxSize * 1024) <
        (utf8Encode (combinedContentOf items)).length :=
      chunk_start_lt (utf8Encode (combinedContentOf items)).length
        (maxSize * 1024) i hB (by omega) hi
    have hbdA : ∃ s₁ s₂ : Str, combinedContentOf items = s₁ ++ s₂ ∧
        (utf8Encode s₁).length = i * (maxSize * 1024) := by
      rcases Nat.eq_zero_or_pos i with hi0 | hipos
      · subst hi0
        refine ⟨[], combinedContentOf items, rfl, ?_⟩
        rw [utf8Encode_nil, List.length_nil, Nat.zero_mul]
      · exact hbound i hipos hstart
    obtain ⟨s₁, s₂, hseq, hslen⟩ := hbdA
    by_cases hend : (i + 1) * (maxSize * 1024) <
        (utf8Encode (combinedContentOf items)).length
    · obtain ⟨u₁, u₂, hueq, hulen⟩ := hbound (i + 1) (by omega) hend
      obtain ⟨t, htu, hteq⟩ := boundary_segment hseq hueq (by
        rw [hslen, hulen, hiB]
        exact Nat.le_add_right _ _)
      have hlen2 : (utf8Encode u₁).length =
          (utf8Encode s₁).length + (utf8Encode t).length := by
        rw [htu, utf8Encode_append, List.length_append]
      have htlen : (utf8Encode t).length = maxSize * 1024 := by
        rw [hulen, hslen, hiB] at hlen2
        generalize i * (maxSize * 1024) = x at hlen2
        omega
      have hchunkeq : ((utf8Encode (combinedContentOf items)).drop
          (i * (maxSize * 1024))).take (maxSize * 1024) = utf8Encode t := by
        rw [← hslen]
        exact segment_take_drop (combinedContentOf items) s₁ t u₂ hteq
          (maxSize * 1024) (Or.inl htlen)
      have htv : ValidStr t := fun c hc => hvalid c (by
        rw [hteq]
        exact List.mem_append_right s₁ (List.mem_append_left u₂ hc))
      rw [hchunkeq, utf8Decode_encode t htv]
    · have h2 : combinedContentOf items = combinedContentOf items ++ [] :=
        (List.append_nil _).symm
      obtain ⟨t, htu, hteq⟩ := boundary_segment hseq h2 (by
        rw [hslen]
        exact Nat.le_of_lt hstart)
      have hlen2 : (utf8Encode (combinedContentOf items)).length =
          (utf8Encode s₁).length + (utf8Encode t).length := by
        rw [htu, utf8Encode_append, List.length_append]
      have htle : (utf8Encode t).length ≤ maxSize * 1024 := by
        push_neg at hend
        rw [hslen] at hlen2
        rw [hiB] at hend
        generalize i * (maxSize * 1024) = x at hlen2 hend
        omega
      have hchunkeq : ((utf8Encode (combinedContentOf items)).drop
          (i * (maxSize * 1024))).take (maxSize * 1024) = utf8Encode t := by
        rw [← hslen]
        exact segment_take_drop (combinedContentOf items) s₁ t [] hteq
          (maxSize * 1024) (Or.inr ⟨rfl, htle⟩)
      have htv : ValidStr t := fun c hc => hvalid c (by
        rw [hteq]
        exact List.mem_append_right s₁ (List.mem_append_left [] hc))
      rw [hchunkeq, utf8Decode_encode t htv]
  refine ⟨heq, ?_, ?_, hflat, hrecon, ?_⟩
  · intro i
    rw [List.length_take]
    omega
  · intro i hi
    have hlt := not_last_chunk_lt (utf8Encode (combinedContentOf items)).length
      (maxSize * 1024) i hB hi
    rw [List.length_take, List.length_drop]
    generalize i * (maxSize * 1024) = x at hlt ⊢
    omega
  · intro hascii
    have hsc : ∀ c ∈ combinedContentOf items, c < 0x80 :=
      scalar_ascii_of_encode_ascii hascii
    exact hrecon (ascii_validStr hsc)
      (fun i _ hlt => ascii_boundaries (combinedContentOf items) hsc
        (i * (maxSize * 1024)) hlt)

theorem combinedContentOf_singleton (u c : Str) :
    combinedContentOf [(u, c)] = contentHeader u ++ c := by
  unfold combinedContentOf
  simp [List.intercalate]

theorem ascii_of_mem_append {xs ys : List Nat} (hx : ∀ b ∈ xs, b < 0x80)
    (hy : ∀ b ∈ ys, b < 0x80) : ∀ b ∈ xs ++ ys, b < 0x80 := by
  intro b hb
  rcases List.mem_append.mp hb with hb | hb
  · exact hx b hb
  · exact hy b hb

theorem ascii_replicate (n c : Nat) (hc : c < 0x80) :
    ∀ b ∈ List.replicate n c, b < 0x80 :=
  fun b hb => (List.eq_of_mem_replicate hb) ▸ hc

theorem ascii_contentHeader_u : ∀ b ∈ contentHeader [117], b < 0x80 := by
  decide

theorem ascii_contentHeader_uu : ∀ b ∈ contentHeader [117, 117],
    b < 0x80 := by
  decide

/-- Witness for C2 amended at one ASCII entry of 1200 characters and a one
kilobyte budget: the decoded and re-encoded chunks reconstruct the stream. -/
theorem claim2_amended_combined_chunking_witness :
    0 < 1 ∧
    1 * 1024 < (utf8Encode (combinedContentOf
      [([117], List.replicate 1200 97)])).length ∧
    ((buildFiles [([117], List.replicate 1200 97)] ContentFormat.combined
      (maxBytesOf 1) []).map (fun f => utf8Encode f.content)).flatten =
      utf8Encode (combinedContentOf [([117], List.replicate 1200 97)]) := by
  have hascii : ∀ b ∈ combinedContentOf [([117], List.replicate 1200 97)],
      b < 0x80 := by
    rw [combinedContentOf_singleton]
    exact ascii_of_mem_append ascii_contentHeader_u
      (ascii_replicate 1200 97 (by decide))
  have hb_ascii : ∀ b ∈ utf8Encode (combinedContentOf
      [([117], List.replicate 1200 97)]), b < 0x80 := by
    rw [utf8Encode_ascii hascii]
    exact hascii
  have hL : 1 * 1024 < (utf8Encode (combinedContentOf
      [([117], List.replicate 1200 97)])).length := by
    rw [utf8Encode_ascii hascii, combinedContentOf_singleton,
      List.length_append, List.length_replicate]
    decide
  exact ⟨by decide, hL,
    (claim2_amended_combined_chunking [([117], List.replicate 1200 97)] 1 []
      (by decide) hL).2.2.2.2.1 (ascii_validStr hascii)
      (fun i _ hlt => ascii_boundaries
        (combinedContentOf [([117], List.replicate 1200 97)]) hascii
        (i * (1 * 1024)) hlt)⟩

/-- Counterexample to C2 as stated: one entry of 334 three byte characters
behind its 26 byte ASCII header gives a combined stream of 1028 bytes; the
one kilobyte budget cuts inside a character, the first chunk decodes with
a trailing replacement character and the second chunk starts with an
orphaned continuation byte that decodes to another replacement character,
so the decoded and re-encoded concatenation is 1031 bytes and does not
reconstruct the original 1028 byte stream. -/
theorem claim2_counterexample :
    (utf8Encode (combinedContentOf
      [([117, 117], List.replicate 334 0x3042)])).length = 1028 ∧
    (((buildFiles [([117, 117], List.replicate 334 0x3042)]
        ContentFormat.combined (maxBytesOf 1) []).map
      (fun f => utf8Encode f.content)).flatten).length = 1031 ∧
    ((buildFiles [([117, 117], List.replicate 334 0x3042)]
        ContentFormat.combined (maxBytesOf 1) []).map
      (fun f => utf8Encode f.content)).flatten ≠
      utf8Encode (combinedContentOf
        [([117, 117], List.replicate 334 0x3042)]) := by
  have hhdr_ascii : ∀ b ∈ contentHeader [117, 117], b < 0x80 :=
    ascii_contentHeader_uu
  have hcomb : combinedContentOf [([117, 117], List.replicate 334 0x3042)] =
      contentHeader [117, 117] ++ List.replicate 334 0x3042 :=
    combinedContentOf_singleton _ _
  have hrep : List.replicate 334 0x3042 =
      List.replicate 332 0x3042 ++ (0x3042 :: List.replicate 1 0x3042) := by
    decide
  have hsplit : combinedContentOf [([117, 117], List.replicate 334 0x3042)] =
      (contentHeader [117, 117] ++ List.replicate 332 0x3042) ++
        (0x3042 :: List.replicate 1 0x3042) := by
    rw [hcomb, hrep, List.append_assoc]
  have hs₁valid : ValidStr
      (contentHeader [117, 117] ++ List.replicate 332 0x3042) :=
    validStr_append (ascii_validStr hhdr_ascii)
      (validStr_replicate 332 0x3042 (by decide))
  have hs₁len : (utf8Encode
      (contentHeader [117, 117] ++ List.replicate 332 0x3042)).length =
      1022 := by
    rw [utf8Encode_append, List.length_append, utf8Encode_replicate_length,
      utf8Encode_ascii hhdr_ascii]
    decide
  have hLval : (utf8Encode (combinedContentOf
      [([117, 117], List.replicate 334 0x3042)])).length = 1028 := by
    rw [hsplit, utf8Encode_append, List.length_append, hs₁len,
      utf8Encode_cons, List.length_append, utf8Encode_replicate_length]
    decide
  have htake0 : (utf8Encode (combinedContentOf
      [([117, 117], List.replicate 334 0x3042)])).take 1024 =
      utf8Encode (contentHeader [117, 117] ++ List.replicate 332 0x3042) ++
        (utf8EncodeChar 0x3042).take 2 := by
    rw [hsplit]
    rw [show (1024 : Nat) = (utf8Encode
      (contentHeader [117, 117] ++ List.replicate 332 0x3042)).length + 2
      from by rw [hs₁len]]
    exact take_encode_append
      (contentHeader [117, 117] ++ List.replicate 332 0x3042) 0x3042
      (List.replicate 1 0x3042) 2 (by decide)
  have hdec0 : utf8Decode ((utf8Encode (combinedContentOf
      [([117, 117], List.replicate 334 0x3042)])).take 1024) =
      (contentHeader [117, 117] ++ List.replicate 332 0x3042) ++
        [0xFFFD] := by
    rw [htake0]
    exact utf8Decode_encode_partial
      (contentHeader [117, 117] ++ List.replicate 332 0x3042) hs₁valid
      0x3042 2 (by decide) (by decide) (by decide)
  have hdrop1 : (utf8Encode (combinedContentOf
      [([117, 117], List.replicate 334 0x3042)])).drop 1024 =
      [0x82, 0xE3, 0x81, 0x82] := by
    rw [hsplit, utf8Encode_append, List.drop_append_eq_append_drop,
      List.drop_eq_nil_iff.mpr (by rw [hs₁len]; omega), hs₁len,
      List.nil_append]
    rw [show utf8Encode (0x3042 :: List.replicate 1 0x3042) =
      [0xE3, 0x81, 0x82, 0xE3, 0x81, 0x82] from rfl]
    rfl
  have hchunk1 : ((utf8Encode (combinedContentOf
      [([117, 117], List.replicate 334 0x3042)])).drop 1024).take 1024 =
      [0x82, 0xE3, 0x81, 0x82] := by
    rw [hdrop1]
    rfl
  have henc0 : (utf8Encode
      ((contentHeader [117, 117] ++ List.replicate 332 0x3042) ++
        [0xFFFD])).length = 1025 := by
    rw [utf8Encode_append, List.length_append, hs₁len]
    decide
  have hL' : (1 : Nat) * 1024 < (utf8Encode (combinedContentOf
      [([117, 117], List.replicate 334 0x3042)])).length := by
    rw [hLval]
    decide
  have hflatlen : (((buildFiles [([117, 117], List.replicate 334 0x3042)]
      ContentFormat.combined (maxBytesOf 1) []).map
      (fun f => utf8Encode f.content)).flatten).length = 1031 := by
    rw [buildFiles_combined_split [([117, 117], List.replicate 334 0x3042)]
      1 [] (by decide) hL']
    rw [splitLoopGo_eq (utf8Encode (combinedContentOf
        [([117, 117], List.replicate 334 0x3042)])) (1 * 1024)
      (combinedBaseFilename []) (by decide)
      (utf8Encode (combinedContentOf
        [([117, 117], List.replicate 334 0x3042)])).length 0 1 (by omega)]
    rw [Nat.sub_zero, hLval,
      show ((1028 : Nat) + 1 * 1024 - 1) / (1 * 1024) = 2 from by decide,
      show List.range 2 = [0, 1] from rfl]
    simp only [List.map_cons, List.map_nil]
    have hc0 : utf8Decode (((utf8Encode (combinedContentOf
        [([117, 117], List.replicate 334 0x3042)])).drop
          (0 + 0 * (1 * 1024))).take (1 * 1024)) =
        (contentHeader [117, 117] ++ List.replicate 332 0x3042) ++
          [0xFFFD] := by
      rw [show (0 : Nat) + 0 * (1 * 1024) = 0 from rfl, List.drop_zero,
        show (1 : Nat) * 1024 = 1024 from rfl]
      exact hdec0
    have hc1 : utf8Decode (((utf8Encode (combinedContentOf
        [([117, 117], List.replicate 334 0x3042)])).drop
          (0 + 1 * (1 * 1024))).take (1 * 1024)) = [0xFFFD, 0x3042] := by
      rw [show (0 : Nat) + 1 * (1 * 1024) = 1024 from rfl,
        show (1 : Nat) * 1024 = 1024 from rfl, hchunk1]
      decide
    rw [hc0, hc1]
    simp only [List.flatten_cons, List.flatten_nil, List.append_nil,
      List.length_append]
    rw [henc0]
    decide
  refine ⟨hLval, hflatlen, ?_⟩
  intro hcontra
  have hlencontra := congrArg List.length hcontra
  rw [hflatlen, hLval] at hlencontra
  exact absurd hlencontra (by decide)

end UrlDownloader
